/-
Verification of the First First NFTs rarity pipeline
(src/first_first_nfts_rarity.py) against its natural-language
specification.

The Python program is shallowly embedded: strings become `List Char`,
the tokenizer's `re.sub`/`split` pipeline becomes structural recursion
over character lists, dictionaries (`defaultdict(lambda: [])`) become
functions `key → List Nat`, `collections.Counter` becomes a
first-occurrence key listing paired with multiplicities, and Python's
stable ascending `sorted(..., key=lambda x: x[1])` becomes
`List.insertionSort` on the occurrence count (Mathlib's
`orderedInsert` inserts an element before the first element it is `≤`,
which is exactly the stable behaviour of Python's sort).  Python float
arithmetic in the rarity percentage is modelled as exact rational
arithmetic with round-half-to-even, and `str` of a two-decimal float is
modelled as shortest-decimal rendering.
-/
import Mathlib

namespace FirstFirst

/-- Python strings are modelled as lists of characters. -/
abbrev Str := List Char

/-! ### Constants (lines 30-38 of the source) -/

/-- `LIMIT = 50`: page size per OpenSea query. -/
def LIMIT : ℕ := 50

/-- `MAX_SUPPLY = 5000`: number of First First NFTs. -/
def MAX_SUPPLY : ℕ := 5000

/-! ### Lower-casing and text normalization -/

/-- Python `str.lower` on one character (ASCII range, which is all the
retained character set can produce). -/
def pyLowerChar (c : Char) : Char :=
  if 'A' ≤ c ∧ c ≤ 'Z' then Char.ofNat (c.toNat + 32) else c

/-- Python `text.lower()`. -/
def pyLower (s : Str) : Str := s.map pyLowerChar

/-- Python slice `l[:n]` where `n` may be negative (counted from the
end), as in `text[:len(text) - 1]`. -/
def pySliceTo (l : Str) (n : ℤ) : Str :=
  if n < 0 then l.take ((l.length : ℤ) + n).toNat else l.take n.toNat

/-- Lines 196-197: `text = text.lower()` followed by
`text = text[:len(text) - 1]` (remove the period at the end). -/
def normalizeText (s : Str) : Str :=
  let t := pyLower s
  pySliceTo t ((t.length : ℤ) - 1)

/-! ### The tokenizer

Line 38 of the source:
`REGEX = '[^0-9a-zA-Z%-\\.]+'`.
Inside the character class the unescaped `-` between `%` and `\.`
forms a character RANGE from `%` (code 37) to `.` (code 46), so the
set of characters the regex leaves alone is the alphanumerics together
with codes 37-46, i.e. `%`, `&`, `'`, `(`, `)`, `*`, `+`, `,`, `-`,
`.`.  `keepChar` embeds what the code does; `specKeepChar` embeds the
retained set named by the spec (and by the source's own comments). -/

/-- A character NOT matched by the code's regex `[^0-9a-zA-Z%-\.]+`:
alphanumeric, or in the range `%` (37) to `.` (46). -/
def keepChar (c : Char) : Bool :=
  c.isAlphanum || (37 ≤ c.toNat && c.toNat ≤ 46)

/-- Reference retained-character set following the spec's words:
alphanumeric or one of `%`, `-`, `.`. -/
def specKeepChar (c : Char) : Bool :=
  c.isAlphanum || c = '%' || c = '-' || c = '.'

/-- `re.sub(REGEX, ' ', text)`: replace every maximal run of
non-retained characters by a single space.  The boolean records
whether the previous character was part of a run being replaced. -/
def subAuxWith (keep : Char → Bool) : Bool → Str → Str
  | _, [] => []
  | prev, c :: rest =>
    if keep c then c :: subAuxWith keep false rest
    else if prev then subAuxWith keep true rest
    else ' ' :: subAuxWith keep true rest

/-- Python `text.split(' ')`: split at every single space; adjacent
spaces and boundary spaces produce empty fragments. -/
def splitSpaceAux : Str → Str → List Str
  | cur, [] => [cur.reverse]
  | cur, c :: rest =>
    if c = ' ' then cur.reverse :: splitSpaceAux [] rest
    else splitSpaceAux (c :: cur) rest

def pySplitSpace (s : Str) : List Str := splitSpaceAux [] s

/-- Lines 204-208: substitute, split on spaces, drop empty fragments. -/
def tokenizeWith (keep : Char → Bool) (s : Str) : List Str :=
  (pySplitSpace (subAuxWith keep false s)).filter (fun t => !t.isEmpty)

/-- The tokenizer as the code implements it. -/
def pyTokenize (s : Str) : List Str := tokenizeWith keepChar s

/-- Reference tokenizer following the spec's words (retained set
{alphanumeric, `%`, `-`, `.`}); used only to compare with the code's
`pyTokenize`. -/
def tokenizeSpecRef (s : Str) : List Str := tokenizeWith specKeepChar s

/-! ### The rarity percentage string (line 343)

`str(round((value / total) * HUNDRED, ROUND_DIGITS)) + '%'`.
Python float arithmetic is modelled as exact rational arithmetic;
`round(x, 2)` rounds `x * 100` half-to-even, and `str` of the
resulting two-decimal value renders it with the shortest decimal
expansion (`"66.67"`, `"12.5"`, `"100.0"`). -/

/-- Round-half-to-even of a rational, the rounding used by Python's
builtin `round`. -/
def roundHalfEven (q : ℚ) : ℤ :=
  if q - ⌊q⌋ < 1 / 2 then ⌊q⌋
  else if 1 / 2 < q - ⌊q⌋ then ⌊q⌋ + 1
  else if ⌊q⌋ % 2 = 0 then ⌊q⌋ else ⌊q⌋ + 1

/-- Python `round(x, 2)` on a rational. -/
def pyRound2 (x : ℚ) : ℚ := (roundHalfEven (x * 100) : ℚ) / 100

/-- Round-half-to-even of the fraction `a / b`, computed on naturals. -/
def roundHalfEvenNat (a b : ℕ) : ℕ :=
  if 2 * (a % b) < b then a / b
  else if b < 2 * (a % b) then a / b + 1
  else if (a / b) % 2 = 0 then a / b else a / b + 1

/-- `round((value / total) * 100, 2)` expressed in hundredths. -/
def rarityCenti (value total : ℕ) : ℕ :=
  roundHalfEvenNat (value * 100 * 100) total

/-- Decimal digit characters. -/
def digitChar (d : ℕ) : Char :=
  match d with
  | 0 => '0' | 1 => '1' | 2 => '2' | 3 => '3' | 4 => '4'
  | 5 => '5' | 6 => '6' | 7 => '7' | 8 => '8' | _ => '9'

def isDigitChar (c : Char) : Bool := 48 ≤ c.toNat && c.toNat ≤ 57

def digitVal (c : Char) : ℕ := c.toNat - 48

/-- Decimal digits of `n`, least significant first (`fuel ≥ n`). -/
def natDigitsRev : ℕ → ℕ → List ℕ
  | 0, _ => []
  | fuel + 1, n => if n = 0 then [] else n % 10 :: natDigitsRev fuel (n / 10)

/-- Decimal rendering of a natural number. -/
def natToChars (n : ℕ) : Str :=
  if n = 0 then ['0'] else ((natDigitsRev n n).map digitChar).reverse

/-- Python `str` of the nonnegative two-decimal float `n / 100`:
trailing zeros of the fraction are not printed, except that a whole
number keeps one zero (`str(5.0) = "5.0"`). -/
def centiStr (n : ℕ) : Str :=
  let ip := n / 100
  let fp := n % 100
  if fp = 0 then natToChars ip ++ ['.', '0']
  else if fp % 10 = 0 then natToChars ip ++ ['.', digitChar (fp / 10)]
  else natToChars ip ++ ['.', digitChar (fp / 10), digitChar (fp % 10)]

/-- Line 343: the rarity percentage string
`str(round((value / total) * 100, 2)) + '%'`. -/
def rarityStr (value total : ℕ) : Str :=
  centiStr (rarityCenti value total) ++ ['%']

/-! ### Parsing the rarity string back (used to state C3) -/

/-- Parse a nonempty all-digit string as a natural number. -/
def parseNatChars (l : Str) : Option ℕ :=
  if l.isEmpty then none
  else if l.all isDigitChar then
    some (l.foldl (fun a c => 10 * a + digitVal c) 0)
  else none

/-- Cut a string at the first `'.'`. -/
def splitDot : Str → Str × Option Str
  | [] => ([], none)
  | c :: rest =>
    if c = '.' then ([], some rest)
    else
      let p := splitDot rest
      (c :: p.1, p.2)

/-- Parse a decimal numeral `intpart[.fracpart]` as a rational. -/
def parseDecimalChars (l : Str) : Option ℚ :=
  match splitDot l with
  | (ip, none) => (parseNatChars ip).map (fun n => (n : ℚ))
  | (ip, some fp) =>
    match parseNatChars ip, parseNatChars fp with
    | some a, some b => some ((a : ℚ) + (b : ℚ) / 10 ^ fp.length)
    | _, _ => none

/-- Strip a trailing `'%'` and parse the rest as a decimal number. -/
def parsePercent (l : Str) : Option ℚ :=
  if l.getLast? = some '%' then parseDecimalChars l.dropLast else none

/-- Value of a least-significant-first digit list. -/
def digitsVal : List ℕ → ℕ
  | [] => 0
  | d :: ds => d + 10 * digitsVal ds

/-! ### Counter and get_rarity (lines 325-349) -/

/-- The distinct elements of a list in first-occurrence order, the key
order of a Python `dict` / `Counter` built by insertion. -/
def firstOccur [DecidableEq α] (seen : List α) : List α → List α
  | [] => []
  | x :: xs =>
    if x ∈ seen then firstOccur seen xs
    else x :: firstOccur (x :: seen) xs

def pyDedup [DecidableEq α] (l : List α) : List α := firstOccur [] l

/-- `Counter(data).items()`: each distinct key of `data` in
first-occurrence order, paired with its multiplicity. -/
def counterItems [DecidableEq α] (data : List α) : List (α × ℕ) :=
  (pyDedup data).map (fun k => (k, data.count k))

/-- One entry of the list returned by `get_rarity` (line 346):
`(key, count, rarity[key], mapping[key])`. -/
structure RarityRecord (α : Type) where
  key : α
  occurrenceCount : ℕ
  rarityPercentage : Str
  tokenIds : List ℕ
deriving DecidableEq, Repr

/-- Lines 337-349: count the data, compute each key's rarity string,
pair with `mapping[key]`, and sort ascending by count
(`sorted(output, key=lambda x: x[1])`, a stable sort). -/
def get_rarity [DecidableEq α] (data : List α) (mapping : α → List ℕ)
    (total : ℕ) : List (RarityRecord α) :=
  let recs := (counterItems data).map
    (fun kv => RarityRecord.mk kv.1 kv.2 (rarityStr kv.2 total) (mapping kv.1))
  List.insertionSort (fun s s' => s.occurrenceCount ≤ s'.occurrenceCount) recs

/-- Sum of the `occurrenceCount` field over a record list. -/
def sumOcc (l : List (RarityRecord α)) : ℕ :=
  (l.map (fun s => s.occurrenceCount)).sum

/-! ### organize_text_data (lines 168-234) -/

/-- The tokens of the (normalized) text fetched for one token id:
`getString(token_id).lower()` with the final character removed, then
tokenized. -/
def tokensOf (gs : ℕ → Str) (id : ℕ) : List Str :=
  pyTokenize (normalizeText (gs id))

/-- Mutable state of the loop in `organize_text_data`.  `wordLists`
keeps one token list per id; line 231 flattens it at the end. -/
structure OrgState where
  wordLists : List (List Str)
  totalWordCounts : List ℕ
  completeTexts : List Str
  wordToTokenId : Str → List ℕ
  wordCountToTokenId : ℕ → List ℕ
  completeTextToTokenId : Str → List ℕ

def initOrgState : OrgState :=
  ⟨[], [], [], fun _ => [], fun _ => [], fun _ => []⟩

/-- `defaultdict` update `m[k].append(id)`. -/
def appendAt [DecidableEq α] (m : α → List ℕ) (k : α) (id : ℕ) :
    α → List ℕ :=
  fun x => if x = k then m x ++ [id] else m x

/-- Lines 215-216: `for word in text: m[word].append(token_id)`. -/
def appendWordIds (m : Str → List ℕ) (tokens : List Str) (id : ℕ) :
    Str → List ℕ :=
  tokens.foldl (fun acc w => appendAt acc w id) m

/-- One iteration of the loop over `claimed` (lines 192-225). -/
def orgStep (gs : ℕ → Str) (st : OrgState) (token_id : ℕ) : OrgState :=
  let text := normalizeText (gs token_id)
  let tokens := pyTokenize text
  { wordLists := st.wordLists ++ [tokens]
    totalWordCounts := st.totalWordCounts ++ [tokens.length]
    completeTexts := st.completeTexts ++ [text]
    wordToTokenId := appendWordIds st.wordToTokenId tokens token_id
    wordCountToTokenId := appendAt st.wordCountToTokenId tokens.length token_id
    completeTextToTokenId := appendAt st.completeTextToTokenId text token_id }

/-- The six values returned by `organize_text_data`; `words` is the
flattened word list of line 231. -/
structure OrgOutput where
  words : List Str
  totalWordCounts : List ℕ
  completeTexts : List Str
  wordToTokenId : Str → List ℕ
  wordCountToTokenId : ℕ → List ℕ
  completeTextToTokenId : Str → List ℕ

/-- Lines 168-234: iterate over the claimed token ids, fetching each
text through `gs` (the contract's `getString`), and build all six
outputs. -/
def organize_text_data (claimed : List ℕ) (gs : ℕ → Str) : OrgOutput :=
  let st := claimed.foldl (orgStep gs) initOrgState
  ⟨st.wordLists.flatten, st.totalWordCounts, st.completeTexts,
    st.wordToTokenId, st.wordCountToTokenId, st.completeTextToTokenId⟩

/-! ### get_claimed_token_ids (lines 123-151) and the main pipeline -/

/-- The paging loop: while `offset ≤ MAX_SUPPLY - LIMIT`, request the
page at `(offset, LIMIT)` from the OpenSea API (`fetch`), append its
token ids, and advance `offset` by `LIMIT`.  Returns the list of
`(offset, limit)` requests issued and the concatenated ids. -/
def enumLoop (fetch : ℕ → ℕ → List ℕ) (offset : ℕ) :
    List (ℕ × ℕ) × List ℕ :=
  if h : offset ≤ MAX_SUPPLY - LIMIT then
    let page := fetch offset LIMIT
    let rest := enumLoop fetch (offset + LIMIT)
    ((offset, LIMIT) :: rest.1, page ++ rest.2)
  else ([], [])
termination_by MAX_SUPPLY - offset
decreasing_by simp only [LIMIT, MAX_SUPPLY] at h ⊢; omega

/-- Lines 123-151: the claimed token ids collected by the loop. -/
def get_claimed_token_ids (fetch : ℕ → ℕ → List ℕ) : List ℕ :=
  (enumLoop fetch 0).2

/-- Lines 374-421 of `__main__`, from the sanity check on: if the
number of collected ids differs from `MAX_SUPPLY` the program prints a
diagnostic and exits (`none`); otherwise it organizes the text data
and produces the three rarity tables. -/
def mainPipeline (fetch : ℕ → ℕ → List ℕ) (gs : ℕ → Str) :
    Option (List (RarityRecord Str) × List (RarityRecord ℕ) × List (RarityRecord Str)) :=
  let claimed := get_claimed_token_ids fetch
  if claimed.length = MAX_SUPPLY then
    let org := organize_text_data claimed gs
    some (get_rarity org.words org.wordToTokenId org.words.length,
          get_rarity org.totalWordCounts org.wordCountToTokenId MAX_SUPPLY,
          get_rarity org.completeTexts org.completeTextToTokenId MAX_SUPPLY)
  else none

/-! ## Theorems -/

/-! ### Decimal rendering, parsing and rounding lemmas (for C3) -/

theorem digitChar_spec (d : ℕ) (hd : d < 10) :
    digitVal (digitChar d) = d ∧ isDigitChar (digitChar d) = true ∧ digitChar d ≠ '.' := by
  interval_cases d <;> exact ⟨by decide, by decide, by decide⟩

theorem natDigitsRev_lt (fuel : ℕ) :
    ∀ n d, d ∈ natDigitsRev fuel n → d < 10 := by
  induction fuel with
  | zero => intro n d hd; simp [natDigitsRev] at hd
  | succ f ih =>
    intro n d hd
    by_cases h0 : n = 0
    · simp [natDigitsRev, h0] at hd
    · rw [natDigitsRev, if_neg h0] at hd
      rcases List.mem_cons.mp hd with h | h
      · subst h; exact Nat.mod_lt _ (by omega)
      · exact ih _ _ h

theorem natDigitsRev_val (fuel : ℕ) :
    ∀ n, n ≤ fuel → digitsVal (natDigitsRev fuel n) = n := by
  induction fuel with
  | zero => intro n hn; interval_cases n; simp [natDigitsRev, digitsVal]
  | succ f ih =>
    intro n hn
    by_cases h0 : n = 0
    · simp [natDigitsRev, h0, digitsVal]
    · rw [natDigitsRev, if_neg h0]
      have hdiv : n / 10 ≤ f := by
        have := Nat.div_lt_self (Nat.pos_of_ne_zero h0) (by omega : 1 < 10)
        omega
      rw [digitsVal, ih _ hdiv]
      omega

theorem foldl_digits (ds : List ℕ) (hds : ∀ d ∈ ds, d < 10) (acc : ℕ) :
    ((ds.map digitChar).reverse).foldl (fun a c => 10 * a + digitVal c) acc
      = acc * 10 ^ ds.length + digitsVal ds := by
  induction ds generalizing acc with
  | nil => simp [digitsVal]
  | cons d ds ih =>
    have hd : d < 10 := hds d (List.mem_cons_self d ds)
    have hds' : ∀ x ∈ ds, x < 10 := fun x hx => hds x (List.mem_cons_of_mem d hx)
    simp only [List.map_cons, List.reverse_cons, List.foldl_append, List.foldl_cons,
      List.foldl_nil, ih hds', digitsVal, List.length_cons]
    rw [(digitChar_spec d hd).1]
    ring

theorem parseNat_natToChars (n : ℕ) : parseNatChars (natToChars n) = some n := by
  by_cases h0 : n = 0
  · subst h0; decide
  · unfold natToChars
    rw [if_neg h0]
    have hne : natDigitsRev n n ≠ [] := by
      rcases n with _ | m
      · exact absurd rfl h0
      · rw [natDigitsRev, if_neg h0]; simp
    unfold parseNatChars
    rw [if_neg ?hempty]
    case hempty =>
      simp only [List.isEmpty_eq_true, List.reverse_eq_nil_iff, List.map_eq_nil_iff]
      exact fun h => hne h
    rw [if_pos ?hall]
    case hall =>
      rw [List.all_eq_true]
      intro c hc
      rcases List.mem_map.mp (List.mem_reverse.mp hc) with ⟨d, hd, rfl⟩
      exact (digitChar_spec d (natDigitsRev_lt n n d hd)).2.1
    rw [foldl_digits _ (natDigitsRev_lt n n) 0, natDigitsRev_val n n (le_refl n)]
    simp



theorem splitDot_append (a r : Str) (ha : ∀ c ∈ a, c ≠ '.') :
    splitDot (a ++ '.' :: r) = (a, some r) := by
  induction a with
  | nil => simp [splitDot]
  | cons c cs ih =>
    have hc : c ≠ '.' := ha c (List.mem_cons_self c cs)
    have ih' := ih (fun x hx => ha x (List.mem_cons_of_mem c hx))
    simp only [List.cons_append, splitDot, if_neg hc, List.append_eq, ih']

theorem natToChars_no_dot (n : ℕ) : ∀ c ∈ natToChars n, c ≠ '.' := by
  intro c hc
  unfold natToChars at hc
  by_cases h0 : n = 0
  · rw [if_pos h0] at hc
    simp only [List.mem_singleton] at hc
    subst hc; decide
  · rw [if_neg h0] at hc
    rcases List.mem_map.mp (List.mem_reverse.mp hc) with ⟨d, hd, rfl⟩
    exact (digitChar_spec d (natDigitsRev_lt n n d hd)).2.2

theorem parseNat_one (d : ℕ) (hd : d < 10) :
    parseNatChars [digitChar d] = some d := by
  interval_cases d <;> decide

theorem parseNat_two (d e : ℕ) (hd : d < 10) (he : e < 10) :
    parseNatChars [digitChar d, digitChar e] = some (10 * d + e) := by
  interval_cases d <;> interval_cases e <;> decide

theorem parseDec_concat (a frac : Str) (hnd : ∀ c ∈ a, c ≠ '.') (x y : ℕ)
    (hx : parseNatChars a = some x) (hy : parseNatChars frac = some y) :
    parseDecimalChars (a ++ '.' :: frac) = some ((x : ℚ) + (y : ℚ) / 10 ^ frac.length) := by
  unfold parseDecimalChars
  rw [splitDot_append a frac hnd]
  dsimp only
  rw [hx, hy]

theorem parseDec_centi (n : ℕ) :
    parseDecimalChars (centiStr n) = some ((n : ℚ) / 100) := by
  have hmod := Nat.div_add_mod n 100
  have hfp : n % 100 < 100 := Nat.mod_lt _ (by omega)
  have hcast : (n : ℚ) = 100 * (n / 100 : ℕ) + (n % 100 : ℕ) := by
    exact_mod_cast hmod.symm
  unfold centiStr
  by_cases h1 : n % 100 = 0
  · rw [if_pos h1]
    rw [parseDec_concat (natToChars (n / 100)) ['0'] (natToChars_no_dot _) (n / 100) 0
      (parseNat_natToChars _) (by decide)]
    simp only [List.length_singleton, pow_one, Option.some.injEq]
    rw [hcast, h1]
    push_cast
    ring
  · rw [if_neg h1]
    by_cases h2 : n % 100 % 10 = 0
    · rw [if_pos h2]
      rw [parseDec_concat (natToChars (n / 100)) [digitChar (n % 100 / 10)]
        (natToChars_no_dot _) (n / 100) (n % 100 / 10)
        (parseNat_natToChars _) (parseNat_one _ (by omega))]
      simp only [List.length_singleton, pow_one, Option.some.injEq]
      have hn : (n : ℚ) = 100 * ((n / 100 : ℕ) : ℚ) + 10 * ((n % 100 / 10 : ℕ) : ℚ) := by
        exact_mod_cast (by omega : n = 100 * (n / 100) + 10 * (n % 100 / 10))
      rw [hn]
      ring
    · rw [if_neg h2]
      rw [parseDec_concat (natToChars (n / 100))
        [digitChar (n % 100 / 10), digitChar (n % 100 % 10)] (natToChars_no_dot _)
        (n / 100) (10 * (n % 100 / 10) + n % 100 % 10)
        (parseNat_natToChars _) (parseNat_two _ _ (by omega) (by omega))]
      simp only [List.length_cons, List.length_singleton, List.length_nil,
        Option.some.injEq]
      have hfp10 : 10 * (n % 100 / 10) + n % 100 % 10 = n % 100 := by omega
      rw [hfp10, hcast]
      push_cast
      ring



theorem div_decomp (a b : ℕ) (hb : 0 < b) :
    (a : ℚ) / b = ((a / b : ℕ) : ℚ) + ((a % b : ℕ) : ℚ) / b := by
  have h : (b * (a / b) + a % b : ℕ) = a := Nat.div_add_mod a b
  have hb' : (b : ℚ) ≠ 0 := by exact_mod_cast hb.ne'
  calc (a : ℚ) / b = ((b * (a / b) + a % b : ℕ) : ℚ) / b := by rw [h]
    _ = ((a / b : ℕ) : ℚ) + ((a % b : ℕ) : ℚ) / b := by
        push_cast
        field_simp
        ring

theorem floor_nat_div (a b : ℕ) (hb : 0 < b) :
    ⌊(a : ℚ) / b⌋ = ((a / b : ℕ) : ℤ) := by
  rw [div_decomp a b hb, add_comm, Int.floor_add_nat]
  have h0 : ⌊((a % b : ℕ) : ℚ) / b⌋ = 0 := by
    rw [Int.floor_eq_zero_iff]
    refine ⟨by positivity, ?_⟩
    rw [div_lt_one (by exact_mod_cast hb)]
    exact_mod_cast Nat.mod_lt a hb
  rw [h0, zero_add]

theorem rheNat_eq (a b : ℕ) (hb : 0 < b) :
    roundHalfEven ((a : ℚ) / b) = ((roundHalfEvenNat a b : ℕ) : ℤ) := by
  have hb' : (0 : ℚ) < b := by exact_mod_cast hb
  unfold roundHalfEven roundHalfEvenNat
  rw [floor_nat_div a b hb]
  have hfr : (a : ℚ) / b - (((a / b : ℕ) : ℤ) : ℚ) = ((a % b : ℕ) : ℚ) / b := by
    rw [div_decomp a b hb, Int.cast_natCast]
    ring
  rw [hfr]
  have h1 : (((a % b : ℕ) : ℚ) / b < 1 / 2) ↔ 2 * (a % b) < b := by
    rw [div_lt_div_iff₀ hb' (by norm_num : (0:ℚ) < 2), one_mul]
    constructor
    · intro h
      have h' : ((2 * (a % b) : ℕ) : ℚ) < ((b : ℕ) : ℚ) := by push_cast; linarith
      exact_mod_cast h'
    · intro h
      have h' : ((2 * (a % b) : ℕ) : ℚ) < ((b : ℕ) : ℚ) := by exact_mod_cast h
      push_cast at h'
      linarith
  have h2 : (1 / 2 < ((a % b : ℕ) : ℚ) / b) ↔ b < 2 * (a % b) := by
    rw [div_lt_div_iff₀ (by norm_num : (0:ℚ) < 2) hb', one_mul]
    constructor
    · intro h
      have h' : ((b : ℕ) : ℚ) < ((2 * (a % b) : ℕ) : ℚ) := by push_cast; linarith
      exact_mod_cast h'
    · intro h
      have h' : ((b : ℕ) : ℚ) < ((2 * (a % b) : ℕ) : ℚ) := by exact_mod_cast h
      push_cast at h'
      linarith
  have h3 : (((a / b : ℕ) : ℤ) % 2 = 0) ↔ (a / b) % 2 = 0 := by
    constructor
    · intro h; exact_mod_cast h
    · intro h; exact_mod_cast h
  simp only [h1, h2, h3]
  split_ifs <;> push_cast <;> ring

/-- C3: for every positive `total` and any `occurrenceCount`, the
`rarityPercentage` string built on line 343, with its trailing `%`
removed and parsed back as a decimal number, equals
`round(occurrenceCount / total * 100, 2)`. -/
theorem c3_rarity_string (value total : ℕ) (h : 0 < total) :
    parsePercent (rarityStr value total)
      = some (pyRound2 ((value : ℚ) / (total : ℚ) * 100)) := by
  have hstrip : parsePercent (rarityStr value total)
      = parseDecimalChars (centiStr (rarityCenti value total)) := by
    unfold rarityStr parsePercent
    rw [List.getLast?_concat, List.dropLast_concat]
    simp
  rw [hstrip, parseDec_centi]
  congr 1
  unfold pyRound2
  have hcast : (value : ℚ) / total * 100 * 100
      = ((value * 100 * 100 : ℕ) : ℚ) / total := by
    push_cast; ring
  rw [hcast, rheNat_eq _ _ h]
  unfold rarityCenti
  rw [Int.cast_natCast]

/-- Witness for C3 at `occurrenceCount = 2`, `total = 3`
(the spec scenario whose rarity renders as `"66.67%"`). -/
theorem c3_rarity_string_witness :
    0 < 3 ∧ parsePercent (rarityStr 2 3)
      = some (pyRound2 (((2 : ℕ) : ℚ) / ((3 : ℕ) : ℚ) * 100)) :=
  ⟨by decide, c3_rarity_string 2 3 (by decide)⟩


/-- C6: For every fetched string, the text normalization applied before
any aggregation (lines 196-197) equals lower-casing the string and then
removing exactly the final character, leaving the rest unchanged. -/
theorem c6_normalization (s : Str) : normalizeText s = (pyLower s).dropLast := by
  unfold normalizeText pySliceTo
  set t := pyLower s with ht
  by_cases h : ((t.length : ℤ) - 1) < 0
  · have h0 : t.length = 0 := by omega
    have ht0 : t = [] := List.length_eq_zero.mp h0
    simp [ht0]
  · rw [if_neg h]
    have h1 : ((t.length : ℤ) - 1).toNat = t.length - 1 := by omega
    rw [h1, ← List.dropLast_eq_take]

/-- C8: the specific text `"AB-12.3%!!x"`, lower-cased and then
tokenized by the code's tokenizer, yields exactly
`["ab-12.3%", "x"]`. -/
theorem c8_scenario :
    pyTokenize (pyLower ['A', 'B', '-', '1', '2', '.', '3', '%', '!', '!', 'x'])
      = [['a', 'b', '-', '1', '2', '.', '3', '%'], ['x']] := by decide

/-- Unrolling the paging loop: starting `n` pages before the end, the
loop issues exactly one `(offset, LIMIT)` request per remaining page
and concatenates the pages in response order. -/
theorem enumLoop_schedule (fetch : ℕ → ℕ → List ℕ) :
    ∀ n : ℕ, n ≤ 100 →
      enumLoop fetch (MAX_SUPPLY - n * LIMIT) =
        ((List.range n).map (fun i => (MAX_SUPPLY - n * LIMIT + i * LIMIT, LIMIT)),
         (List.range n).flatMap (fun i => fetch (MAX_SUPPLY - n * LIMIT + i * LIMIT) LIMIT)) := by
  intro n
  induction n with
  | zero =>
    intro _
    rw [enumLoop]
    simp [MAX_SUPPLY, LIMIT]
  | succ m ih =>
    intro hm
    have hoff : MAX_SUPPLY - (m + 1) * LIMIT + LIMIT = MAX_SUPPLY - m * LIMIT := by
      simp only [MAX_SUPPLY, LIMIT] at *; omega
    have hcond : MAX_SUPPLY - (m + 1) * LIMIT ≤ MAX_SUPPLY - LIMIT := by
      simp only [MAX_SUPPLY, LIMIT] at *; omega
    have harith : ∀ i : ℕ,
        MAX_SUPPLY - (m + 1) * LIMIT + (i + 1) * LIMIT
          = MAX_SUPPLY - m * LIMIT + i * LIMIT := by
      intro i; simp only [MAX_SUPPLY, LIMIT]; omega
    rw [enumLoop, dif_pos hcond, hoff, ih (by omega)]
    rw [List.range_succ_eq_map]
    simp only [List.map_cons, List.map_map, List.flatMap_cons, List.flatMap_map,
      Function.comp_def, Nat.succ_eq_add_one, Nat.zero_mul, Nat.add_zero, harith]

/-- The whole loop, run from offset 0: one hundred pages. -/
theorem enumLoop_zero (fetch : ℕ → ℕ → List ℕ) :
    enumLoop fetch 0 =
      ((List.range 100).map (fun i => (i * LIMIT, LIMIT)),
       (List.range 100).flatMap (fun i => fetch (i * LIMIT) LIMIT)) := by
  have h := enumLoop_schedule fetch 100 (le_refl 100)
  have h0 : MAX_SUPPLY - 100 * LIMIT = 0 := by simp [MAX_SUPPLY, LIMIT]
  rw [h0] at h
  simpa using h

/-- C4: the ID enumerator requests pages of size `LIMIT = 50` at
offsets `0, 50, ..., 4950` (exactly while the offset does not exceed
`MAX_SUPPLY - LIMIT`), advancing the offset by the page size after
each request; the collected ids are the concatenation of the fetched
pages; and if the number of collected identifiers differs from
`MAX_SUPPLY = 5000`, the program stops without any further
processing. -/
theorem c4_enumeration (fetch : ℕ → ℕ → List ℕ) (gs : ℕ → Str) :
    (enumLoop fetch 0).1 = (List.range 100).map (fun i => (i * LIMIT, LIMIT))
    ∧ get_claimed_token_ids fetch
        = (List.range 100).flatMap (fun i => fetch (i * LIMIT) LIMIT)
    ∧ (∀ p ∈ (enumLoop fetch 0).1, p.2 = LIMIT ∧ p.1 ≤ MAX_SUPPLY - LIMIT)
    ∧ ((get_claimed_token_ids fetch).length ≠ MAX_SUPPLY
        → mainPipeline fetch gs = none) := by
  refine ⟨(congrArg Prod.fst (enumLoop_zero fetch)),
    (congrArg Prod.snd (enumLoop_zero fetch)), ?_, ?_⟩
  · intro p hp
    rw [congrArg Prod.fst (enumLoop_zero fetch)] at hp
    rcases List.mem_map.mp hp with ⟨i, hi, rfl⟩
    rcases List.mem_range.mp hi with hi'
    refine ⟨rfl, ?_⟩
    simp only [MAX_SUPPLY, LIMIT]
    omega
  · intro hne
    unfold mainPipeline
    rw [if_neg hne]

/-- Witness for C4 at a concrete fetch function: an index returning
empty pages yields 0 ids, which differs from `MAX_SUPPLY`, and the
pipeline stops with `none`. -/
theorem c4_enumeration_witness :
    (get_claimed_token_ids (fun _ _ => [])).length ≠ MAX_SUPPLY
    ∧ mainPipeline (fun _ _ => []) (fun _ => []) = none := by
  have h2 := (c4_enumeration (fun _ _ => []) (fun _ => [])).2.1
  have hlen : (get_claimed_token_ids (fun _ _ => ([] : List ℕ))).length = 0 := by
    rw [h2]; simp [Function.comp_def]
  have hne : (get_claimed_token_ids (fun _ _ => ([] : List ℕ))).length ≠ MAX_SUPPLY := by
    rw [hlen]; simp [MAX_SUPPLY]
  exact ⟨hne, (c4_enumeration (fun _ _ => []) (fun _ => [])).2.2.2 hne⟩

/-- C1 (divergence witness): the regex `[^0-9a-zA-Z%-\.]+` retains the
whole range `%`..`.`, so on the text `"a&b"` the code's tokenizer
keeps `&` inside a single token, while the reference tokenizer of the
spec (and of the code's own comments) replaces `&` with a space and
produces two tokens.  The produced token `"a&b"` also contains a
character outside {alphanumeric, `%`, `-`, `.`}. -/
theorem c1_regex_divergence :
    pyTokenize ['a', '&', 'b'] = [['a', '&', 'b']]
    ∧ tokenizeSpecRef ['a', '&', 'b'] = [['a'], ['b']]
    ∧ pyTokenize ['a', '&', 'b'] ≠ tokenizeSpecRef ['a', '&', 'b']
    ∧ specKeepChar '&' = false ∧ keepChar '&' = true := by decide


theorem appendAt_eq [DecidableEq α] (m : α → List ℕ) (k : α) (id : ℕ) (x : α) :
    appendAt m k id x = if x = k then m x ++ [id] else m x := rfl

theorem appendWordIds_eq (tokens : List Str) (m : Str → List ℕ) (id : ℕ) (w : Str) :
    appendWordIds m tokens id w = m w ++ List.replicate (tokens.count w) id := by
  induction tokens generalizing m with
  | nil => simp [appendWordIds]
  | cons t ts ih =>
    have step : appendWordIds m (t :: ts) id = appendWordIds (appendAt m t id) ts id := rfl
    rw [step, ih]
    by_cases hw : w = t
    · rw [appendAt_eq, if_pos hw]
      have hc : (t :: ts).count w = ts.count w + 1 := by
        simp [List.count_cons, hw]
      rw [hc, List.append_assoc]
      congr 1
    · rw [appendAt_eq, if_neg hw]
      have hc : (t :: ts).count w = ts.count w := by
        simp [List.count_cons, hw]
      rw [hc]

theorem firstOccur_mem [DecidableEq α] (l : List α) :
    ∀ (seen : List α) (a : α), a ∈ firstOccur seen l ↔ a ∈ l ∧ a ∉ seen := by
  induction l with
  | nil => intro seen a; simp [firstOccur]
  | cons x xs ih =>
    intro seen a
    by_cases hx : x ∈ seen
    · rw [firstOccur, if_pos hx, ih]
      constructor
      · rintro ⟨h1, h2⟩; exact ⟨List.mem_cons_of_mem x h1, h2⟩
      · rintro ⟨h1, h2⟩
        rcases List.mem_cons.mp h1 with rfl | h1
        · exact absurd hx h2
        · exact ⟨h1, h2⟩
    · rw [firstOccur, if_neg hx]
      constructor
      · intro h
        rcases List.mem_cons.mp h with rfl | h
        · exact ⟨List.mem_cons_self a xs, hx⟩
        · rcases (ih (x :: seen) a).mp h with ⟨h1, h2⟩
          exact ⟨List.mem_cons_of_mem x h1,
            fun hs => h2 (List.mem_cons_of_mem x hs)⟩
      · rintro ⟨h1, h2⟩
        rcases List.mem_cons.mp h1 with rfl | h1
        · exact List.mem_cons_self a _
        · by_cases hax : a = x
          · subst hax; exact List.mem_cons_self a _
          · exact List.mem_cons_of_mem x ((ih (x :: seen) a).mpr
              ⟨h1, fun hs => (List.mem_cons.mp hs).elim hax h2⟩)

theorem firstOccur_nodup [DecidableEq α] (l : List α) :
    ∀ seen : List α, (firstOccur seen l).Nodup := by
  induction l with
  | nil => intro seen; simp [firstOccur]
  | cons x xs ih =>
    intro seen
    by_cases hx : x ∈ seen
    · rw [firstOccur, if_pos hx]; exact ih seen
    · rw [firstOccur, if_neg hx]
      refine List.nodup_cons.mpr ⟨?_, ih (x :: seen)⟩
      intro hmem
      exact ((firstOccur_mem xs (x :: seen) x).mp hmem).2 (List.mem_cons_self x seen)



theorem sum_map_add {α : Type u} {L : List α} (f g : α → ℕ) :
    (L.map fun k => f k + g k).sum = (L.map f).sum + (L.map g).sum := by
  induction L with
  | nil => simp
  | cons x xs ih => simp [ih]; omega

theorem sum_map_indicator [DecidableEq α] (L : List α) (x : α) :
    (L.map fun k => if k = x then 1 else 0).sum = L.count x := by
  induction L with
  | nil => simp
  | cons y ys ih =>
    by_cases hy : y = x
    · subst hy
      simp [List.count_cons, ih]
      omega
    · simp [List.count_cons, hy, ih, Ne.symm hy]

theorem sum_count_eq_length [DecidableEq α] (L : List α) (hnd : L.Nodup) :
    ∀ data : List α, (∀ a ∈ data, a ∈ L) →
      (L.map fun k => data.count k).sum = data.length := by
  intro data
  induction data with
  | nil => intro _; simp
  | cons x xs ih =>
    intro hcov
    have hx : x ∈ L := hcov x (List.mem_cons_self x xs)
    have hcov' : ∀ a ∈ xs, a ∈ L := fun a ha => hcov a (List.mem_cons_of_mem x ha)
    have hcount : ∀ k, (x :: xs).count k = xs.count k + if k = x then 1 else 0 := by
      intro k
      by_cases hk : k = x
      · subst hk; simp [List.count_cons]
      · simp [List.count_cons, hk]
    calc (L.map fun k => (x :: xs).count k).sum
        = (L.map fun k => xs.count k + if k = x then 1 else 0).sum := by
          congr 1
          exact List.map_congr_left (fun k _ => hcount k)
      _ = (L.map fun k => xs.count k).sum
            + (L.map fun k => if k = x then 1 else 0).sum :=
          sum_map_add (fun k => xs.count k) (fun k => if k = x then 1 else 0)
      _ = xs.length + 1 := by
          rw [ih hcov', sum_map_indicator, List.count_eq_one_of_mem hnd hx]
      _ = (x :: xs).length := by simp

theorem sumOcc_get_rarity [DecidableEq α] (data : List α) (mapping : α → List ℕ)
    (total : ℕ) : sumOcc (get_rarity data mapping total) = data.length := by
  unfold sumOcc get_rarity
  have hperm := (List.perm_insertionSort
    (fun s s' : RarityRecord α => s.occurrenceCount ≤ s'.occurrenceCount)
    ((counterItems data).map
      (fun kv => RarityRecord.mk kv.1 kv.2 (rarityStr kv.2 total) (mapping kv.1))))
  rw [(hperm.map (fun s : RarityRecord α => s.occurrenceCount)).sum_eq]
  have hmap : ((counterItems data).map
      (fun kv => RarityRecord.mk kv.1 kv.2 (rarityStr kv.2 total) (mapping kv.1))).map
        (fun s : RarityRecord α => s.occurrenceCount)
      = (pyDedup data).map (fun k => data.count k) := by
    unfold counterItems
    rw [List.map_map, List.map_map]
    rfl
  rw [hmap]
  exact sum_count_eq_length (pyDedup data) (firstOccur_nodup data [])
    data (fun a ha => (firstOccur_mem data [] a).mpr ⟨ha, by simp⟩)

theorem mem_get_rarity [DecidableEq α] {data : List α} {mapping : α → List ℕ}
    {total : ℕ} {s : RarityRecord α} (hs : s ∈ get_rarity data mapping total) :
    s.key ∈ data ∧ s.occurrenceCount = data.count s.key
      ∧ s.rarityPercentage = rarityStr (data.count s.key) total
      ∧ s.tokenIds = mapping s.key := by
  unfold get_rarity at hs
  rw [(List.perm_insertionSort _ _).mem_iff] at hs
  rcases List.mem_map.mp hs with ⟨kv, hkv, rfl⟩
  unfold counterItems at hkv
  rcases List.mem_map.mp hkv with ⟨k, hk, rfl⟩
  have hkmem : k ∈ data := ((firstOccur_mem data [] k).mp hk).1
  exact ⟨hkmem, rfl, rfl, rfl⟩



theorem filter_orderedInsert_count {α : Type} (c : ℕ) (x : RarityRecord α)
    (l : List (RarityRecord α)) :
    (List.orderedInsert (fun s s' => s.occurrenceCount ≤ s'.occurrenceCount) x l).filter
        (fun s => s.occurrenceCount == c)
      = if x.occurrenceCount = c
          then x :: l.filter (fun s => s.occurrenceCount == c)
          else l.filter (fun s => s.occurrenceCount == c) := by
  induction l with
  | nil =>
    by_cases hx : x.occurrenceCount = c <;> simp [List.orderedInsert, hx]
  | cons y ys ih =>
    rw [List.orderedInsert]
    by_cases hr : x.occurrenceCount ≤ y.occurrenceCount
    · rw [if_pos hr]
      by_cases hx : x.occurrenceCount = c <;> simp [List.filter_cons, hx]
    · rw [if_neg hr]
      by_cases hx : x.occurrenceCount = c
      · have hy : ¬ y.occurrenceCount = c := by omega
        simp [List.filter_cons, hx, hy, ih]
      · simp [List.filter_cons, hx, ih]

theorem filter_insertionSort_count {α : Type} (c : ℕ) (l : List (RarityRecord α)) :
    (List.insertionSort (fun s s' => s.occurrenceCount ≤ s'.occurrenceCount) l).filter
        (fun s => s.occurrenceCount == c)
      = l.filter (fun s => s.occurrenceCount == c) := by
  induction l with
  | nil => rfl
  | cons x xs ih =>
    rw [List.insertionSort, filter_orderedInsert_count, ih]
    by_cases hx : x.occurrenceCount = c <;> simp [List.filter_cons, hx]

/-- C7: for every input data sequence, the record list returned by
`get_rarity` is sorted ascending by `occurrenceCount`: any two
consecutive records satisfy first `≤` second. -/
theorem c7_sorted_by_count [DecidableEq α] (data : List α) (mapping : α → List ℕ)
    (total : ℕ) :
    List.Chain' (fun s s' : RarityRecord α => s.occurrenceCount ≤ s'.occurrenceCount)
      (get_rarity data mapping total) := by
  unfold get_rarity
  haveI : IsTotal (RarityRecord α)
      (fun s s' => s.occurrenceCount ≤ s'.occurrenceCount) :=
    ⟨fun a b => Nat.le_total _ _⟩
  haveI : IsTrans (RarityRecord α)
      (fun s s' => s.occurrenceCount ≤ s'.occurrenceCount) :=
    ⟨fun _ _ _ => Nat.le_trans⟩
  exact List.Pairwise.chain' (List.sorted_insertionSort _ _)

/-- C10: records with equal `occurrenceCount` appear in the order in
which their keys are first encountered in the input data sequence:
for every count value `c`, the keys of the records with that count,
in output order, are exactly the first-occurrence-ordered distinct
keys of the data whose multiplicity is `c` (Python's `sorted` is
stable over the `Counter`'s first-occurrence key order). -/
theorem c10_stable_ties [DecidableEq α] (data : List α) (mapping : α → List ℕ)
    (total c : ℕ) :
    ((get_rarity data mapping total).filter
        (fun s => s.occurrenceCount == c)).map (fun s => s.key)
      = (pyDedup data).filter (fun k => data.count k == c) := by
  unfold get_rarity
  rw [filter_insertionSort_count]
  unfold counterItems
  rw [List.map_map, List.filter_map, List.map_map]
  have hfun : ((fun s : RarityRecord α => s.occurrenceCount == c) ∘
      (fun kv : α × ℕ => RarityRecord.mk kv.1 kv.2 (rarityStr kv.2 total) (mapping kv.1)) ∘
      (fun k => (k, data.count k))) = (fun k => data.count k == c) := rfl
  have hid : ((fun s : RarityRecord α => s.key) ∘
      (fun kv : α × ℕ => RarityRecord.mk kv.1 kv.2 (rarityStr kv.2 total) (mapping kv.1)) ∘
      (fun k => (k, data.count k))) = id := rfl
  rw [hfun, hid, List.map_id]



theorem orgStep_wordLists (gs : ℕ → Str) (st : OrgState) (id : ℕ) :
    (orgStep gs st id).wordLists = st.wordLists ++ [tokensOf gs id] := rfl

theorem orgStep_counts (gs : ℕ → Str) (st : OrgState) (id : ℕ) :
    (orgStep gs st id).totalWordCounts
      = st.totalWordCounts ++ [(tokensOf gs id).length] := rfl

theorem orgStep_texts (gs : ℕ → Str) (st : OrgState) (id : ℕ) :
    (orgStep gs st id).completeTexts = st.completeTexts ++ [normalizeText (gs id)] := rfl

theorem orgStep_word (gs : ℕ → Str) (st : OrgState) (id : ℕ) (w : Str) :
    (orgStep gs st id).wordToTokenId w
      = st.wordToTokenId w ++ List.replicate ((tokensOf gs id).count w) id :=
  appendWordIds_eq _ _ _ _

theorem orgStep_wc (gs : ℕ → Str) (st : OrgState) (id : ℕ) (n : ℕ) :
    (orgStep gs st id).wordCountToTokenId n
      = if n = (tokensOf gs id).length
          then st.wordCountToTokenId n ++ [id] else st.wordCountToTokenId n := rfl

theorem orgStep_text_map (gs : ℕ → Str) (st : OrgState) (id : ℕ) (t : Str) :
    (orgStep gs st id).completeTextToTokenId t
      = if t = normalizeText (gs id)
          then st.completeTextToTokenId t ++ [id] else st.completeTextToTokenId t := rfl

theorem foldl_org_wordLists (gs : ℕ → Str) (claimed : List ℕ) :
    ∀ st : OrgState, (claimed.foldl (orgStep gs) st).wordLists
      = st.wordLists ++ claimed.map (tokensOf gs) := by
  induction claimed with
  | nil => intro st; simp
  | cons id rest ih =>
    intro st
    rw [List.foldl_cons, ih, List.map_cons, orgStep_wordLists, List.append_assoc,
      List.singleton_append]

theorem foldl_org_counts (gs : ℕ → Str) (claimed : List ℕ) :
    ∀ st : OrgState, (claimed.foldl (orgStep gs) st).totalWordCounts
      = st.totalWordCounts ++ claimed.map (fun id => (tokensOf gs id).length) := by
  induction claimed with
  | nil => intro st; simp
  | cons id rest ih =>
    intro st
    rw [List.foldl_cons, ih, List.map_cons, orgStep_counts, List.append_assoc,
      List.singleton_append]

theorem foldl_org_texts (gs : ℕ → Str) (claimed : List ℕ) :
    ∀ st : OrgState, (claimed.foldl (orgStep gs) st).completeTexts
      = st.completeTexts ++ claimed.map (fun id => normalizeText (gs id)) := by
  induction claimed with
  | nil => intro st; simp
  | cons id rest ih =>
    intro st
    rw [List.foldl_cons, ih, List.map_cons, orgStep_texts, List.append_assoc,
      List.singleton_append]

theorem foldl_org_word (gs : ℕ → Str) (claimed : List ℕ) (w : Str) :
    ∀ st : OrgState, (claimed.foldl (orgStep gs) st).wordToTokenId w
      = st.wordToTokenId w
        ++ claimed.flatMap (fun id => List.replicate ((tokensOf gs id).count w) id) := by
  induction claimed with
  | nil => intro st; simp
  | cons id rest ih =>
    intro st
    rw [List.foldl_cons, ih, List.flatMap_cons, orgStep_word, List.append_assoc]

theorem foldl_org_wc (gs : ℕ → Str) (claimed : List ℕ) (n : ℕ) :
    ∀ st : OrgState, (claimed.foldl (orgStep gs) st).wordCountToTokenId n
      = st.wordCountToTokenId n
        ++ claimed.filter (fun id => (tokensOf gs id).length == n) := by
  induction claimed with
  | nil => intro st; simp
  | cons id rest ih =>
    intro st
    rw [List.foldl_cons, ih, orgStep_wc, List.filter_cons]
    by_cases hn : n = (tokensOf gs id).length
    · rw [if_pos hn]
      have : ((tokensOf gs id).length == n) = true := by simp [hn]
      rw [this, List.append_assoc, List.singleton_append]
      simp
    · rw [if_neg hn]
      have : ((tokensOf gs id).length == n) = false := by
        simp
        exact fun h => hn h.symm
      rw [this]
      simp

theorem foldl_org_text_map (gs : ℕ → Str) (claimed : List ℕ) (t : Str) :
    ∀ st : OrgState, (claimed.foldl (orgStep gs) st).completeTextToTokenId t
      = st.completeTextToTokenId t
        ++ claimed.filter (fun id => normalizeText (gs id) == t) := by
  induction claimed with
  | nil => intro st; simp
  | cons id rest ih =>
    intro st
    rw [List.foldl_cons, ih, orgStep_text_map, List.filter_cons]
    by_cases ht : t = normalizeText (gs id)
    · rw [if_pos ht]
      have : (normalizeText (gs id) == t) = true := by simp [ht]
      rw [this, List.append_assoc, List.singleton_append]
      simp
    · rw [if_neg ht]
      have : (normalizeText (gs id) == t) = false := by
        simp
        exact fun h => ht h.symm
      rw [this]
      simp



theorem org_words_eq (claimed : List ℕ) (gs : ℕ → Str) :
    (organize_text_data claimed gs).words = (claimed.map (tokensOf gs)).flatten := by
  simp only [organize_text_data]
  rw [foldl_org_wordLists]
  rfl

theorem org_counts_eq (claimed : List ℕ) (gs : ℕ → Str) :
    (organize_text_data claimed gs).totalWordCounts
      = claimed.map (fun id => (tokensOf gs id).length) := by
  simp only [organize_text_data]
  rw [foldl_org_counts]
  rfl

theorem org_texts_eq (claimed : List ℕ) (gs : ℕ → Str) :
    (organize_text_data claimed gs).completeTexts
      = claimed.map (fun id => normalizeText (gs id)) := by
  simp only [organize_text_data]
  rw [foldl_org_texts]
  rfl

theorem org_word_map_eq (claimed : List ℕ) (gs : ℕ → Str) (w : Str) :
    (organize_text_data claimed gs).wordToTokenId w
      = claimed.flatMap (fun id => List.replicate ((tokensOf gs id).count w) id) := by
  simp only [organize_text_data]
  rw [foldl_org_word]
  rfl

theorem org_wc_map_eq (claimed : List ℕ) (gs : ℕ → Str) (n : ℕ) :
    (organize_text_data claimed gs).wordCountToTokenId n
      = claimed.filter (fun id => (tokensOf gs id).length == n) := by
  simp only [organize_text_data]
  rw [foldl_org_wc]
  rfl

theorem org_text_map_eq (claimed : List ℕ) (gs : ℕ → Str) (t : Str) :
    (organize_text_data claimed gs).completeTextToTokenId t
      = claimed.filter (fun id => normalizeText (gs id) == t) := by
  simp only [organize_text_data]
  rw [foldl_org_text_map]
  rfl

theorem len_flatMap_replicate (f : ℕ → List Str) (w : Str) (claimed : List ℕ) :
    (claimed.flatMap (fun id => List.replicate ((f id).count w) id)).length
      = ((claimed.map f).flatten).count w := by
  induction claimed with
  | nil => simp
  | cons x rest ih =>
    rw [List.flatMap_cons, List.map_cons, List.flatten_cons, List.length_append,
      List.count_append, List.length_replicate, ih]

theorem org_word_len (claimed : List ℕ) (gs : ℕ → Str) (w : Str) :
    ((organize_text_data claimed gs).wordToTokenId w).length
      = (organize_text_data claimed gs).words.count w := by
  rw [org_word_map_eq, org_words_eq, len_flatMap_replicate (tokensOf gs) w claimed]




theorem org_wc_len (claimed : List ℕ) (gs : ℕ → Str) (n : ℕ) :
    ((organize_text_data claimed gs).wordCountToTokenId n).length
      = (organize_text_data claimed gs).totalWordCounts.count n := by
  rw [org_wc_map_eq, org_counts_eq, List.count_eq_countP, List.countP_map,
    List.countP_eq_length_filter]
  rfl

theorem org_text_len (claimed : List ℕ) (gs : ℕ → Str) (t : Str) :
    ((organize_text_data claimed gs).completeTextToTokenId t).length
      = (organize_text_data claimed gs).completeTexts.count t := by
  rw [org_text_map_eq, org_texts_eq, List.count_eq_countP, List.countP_map,
    List.countP_eq_length_filter]
  rfl

theorem count_flatMap_replicate_zero (f : ℕ → ℕ) (id : ℕ) (claimed : List ℕ)
    (hid : id ∉ claimed) :
    (claimed.flatMap (fun j => List.replicate (f j) j)).count id = 0 := by
  induction claimed with
  | nil => simp
  | cons x rest ih =>
    have hx : id ≠ x := fun h => hid (h ▸ List.mem_cons_self x rest)
    have hrest : id ∉ rest := fun h => hid (List.mem_cons_of_mem x h)
    rw [List.flatMap_cons, List.count_append, ih hrest, List.count_replicate]
    simp [hx, Ne.symm hx]

theorem count_flatMap_replicate (f : ℕ → ℕ) (id : ℕ) (claimed : List ℕ)
    (hnd : claimed.Nodup) (hid : id ∈ claimed) :
    (claimed.flatMap (fun j => List.replicate (f j) j)).count id = f id := by
  induction claimed with
  | nil => simp at hid
  | cons x rest ih =>
    rw [List.flatMap_cons, List.count_append]
    rcases List.mem_cons.mp hid with rfl | hmem
    · have hrest : id ∉ rest := (List.nodup_cons.mp hnd).1
      rw [count_flatMap_replicate_zero f id rest hrest, List.count_replicate]
      simp
    · have hx : id ≠ x := by
        rintro rfl
        exact (List.nodup_cons.mp hnd).1 hmem
      rw [ih (List.nodup_cons.mp hnd).2 hmem, List.count_replicate]
      simp [hx, Ne.symm hx]

/-- C5: the word-to-token-id mapping appends the identifier once per
occurrence of the token in that identifier's text: for distinct
claimed ids, the number of times `id` appears in `wordToIds[w]` equals
the number of occurrences of `w` among the tokens of `id`'s text. -/
theorem c5_word_occurrences (claimed : List ℕ) (gs : ℕ → Str)
    (hnd : claimed.Nodup) (id : ℕ) (hid : id ∈ claimed) (w : Str) :
    ((organize_text_data claimed gs).wordToTokenId w).count id
      = (tokensOf gs id).count w := by
  rw [org_word_map_eq]
  exact count_flatMap_replicate (fun j => (tokensOf gs j).count w) id claimed hnd hid

/-- Witness for C5: one claimed id whose text `"aa aa."` holds the
token `"aa"` twice; the id is appended twice for that token. -/
theorem c5_word_occurrences_witness :
    ([7] : List ℕ).Nodup ∧ 7 ∈ ([7] : List ℕ)
    ∧ ((organize_text_data [7]
          (fun _ => ['a', 'a', ' ', 'a', 'a', '.'])).wordToTokenId ['a', 'a']).count 7
        = (tokensOf (fun _ => ['a', 'a', ' ', 'a', 'a', '.']) 7).count ['a', 'a']
    ∧ (tokensOf (fun _ => ['a', 'a', ' ', 'a', 'a', '.']) 7).count ['a', 'a'] = 2 :=
  ⟨by decide, by decide,
    c5_word_occurrences [7] (fun _ => ['a', 'a', ' ', 'a', 'a', '.'])
      (by decide) 7 (by decide) ['a', 'a'], by decide⟩



/-- `List.count` does not depend on which lawful `BEq` instance is
used. -/
theorem count_irrel {α : Type} [DecidableEq α] [inst2 : BEq α] [LawfulBEq α]
    (a : α) (l : List α) :
    @List.count α instBEqOfDecidableEq a l = @List.count α inst2 a l := by
  induction l with
  | nil => rfl
  | cons x xs ih =>
    rw [@List.count_cons α instBEqOfDecidableEq, @List.count_cons α inst2, ih]
    by_cases h : x = a <;> simp [instBEqOfDecidableEq, h]

/-- C9: for each of the three `get_rarity` calls paired with the
matching mapping from `organize_text_data`, every returned record's
identifier list has length equal to its `occurrenceCount`. -/
theorem c9_ids_length_matches_count (claimed : List ℕ) (gs : ℕ → Str) (t1 t2 t3 : ℕ) :
    (∀ s ∈ get_rarity (organize_text_data claimed gs).words
        (organize_text_data claimed gs).wordToTokenId t1,
      s.tokenIds.length = s.occurrenceCount)
    ∧ (∀ s ∈ get_rarity (organize_text_data claimed gs).totalWordCounts
        (organize_text_data claimed gs).wordCountToTokenId t2,
      s.tokenIds.length = s.occurrenceCount)
    ∧ (∀ s ∈ get_rarity (organize_text_data claimed gs).completeTexts
        (organize_text_data claimed gs).completeTextToTokenId t3,
      s.tokenIds.length = s.occurrenceCount) := by
  refine ⟨?_, ?_, ?_⟩ <;> intro s hs <;>
    obtain ⟨hmem, hocc, hrar, hids⟩ := mem_get_rarity hs
  · rw [hids, org_word_len]; rw [hocc, count_irrel]
  · rw [hids, org_wc_len]; rw [hocc, count_irrel]
  · rw [hids, org_text_len]; rw [hocc, count_irrel]

/-- Witness for C9: a concrete record of the word table for one
claimed id with text `"ab."`. -/
theorem c9_witness :
    (RarityRecord.mk ['a', 'b'] 1 ['1', '0', '0', '.', '0', '%'] [7])
        ∈ get_rarity (organize_text_data [7] (fun _ => ['a', 'b', '.'])).words
            (organize_text_data [7] (fun _ => ['a', 'b', '.'])).wordToTokenId 1
    ∧ (RarityRecord.mk ['a', 'b'] 1 ['1', '0', '0', '.', '0', '%'] [7]).tokenIds.length
        = (RarityRecord.mk ['a', 'b'] 1 ['1', '0', '0', '.', '0', '%'] [7]).occurrenceCount :=
  ⟨by decide, (c9_ids_length_matches_count [7] (fun _ => ['a', 'b', '.']) 1 1 1).1 _ (by decide)⟩

/-- C2: in the pipeline the sum of `occurrenceCount` over the records
of each mapping equals the denominator `total` passed to `get_rarity`:
the flattened all-words length for the word table, and
`MAX_SUPPLY = 5000` for the word-count and complete-text tables, given
that the number of claimed identifiers equals `MAX_SUPPLY`. -/
theorem c2_rarity_sums (claimed : List ℕ) (gs : ℕ → Str)
    (h : claimed.length = MAX_SUPPLY) :
    sumOcc (get_rarity (organize_text_data claimed gs).words
        (organize_text_data claimed gs).wordToTokenId
        (organize_text_data claimed gs).words.length)
      = (organize_text_data claimed gs).words.length
    ∧ sumOcc (get_rarity (organize_text_data claimed gs).totalWordCounts
        (organize_text_data claimed gs).wordCountToTokenId MAX_SUPPLY) = MAX_SUPPLY
    ∧ sumOcc (get_rarity (organize_text_data claimed gs).completeTexts
        (organize_text_data claimed gs).completeTextToTokenId MAX_SUPPLY)
      = MAX_SUPPLY := by
  refine ⟨sumOcc_get_rarity _ _ _, ?_, ?_⟩
  · rw [sumOcc_get_rarity, org_counts_eq, List.length_map, h]
  · rw [sumOcc_get_rarity, org_texts_eq, List.length_map, h]

/-- Witness for C2 with `MAX_SUPPLY` concrete claimed ids. -/
theorem c2_rarity_sums_witness :
    (List.range MAX_SUPPLY).length = MAX_SUPPLY
    ∧ sumOcc (get_rarity
        (organize_text_data (List.range MAX_SUPPLY) (fun _ => [])).totalWordCounts
        (organize_text_data (List.range MAX_SUPPLY) (fun _ => [])).wordCountToTokenId
        MAX_SUPPLY)
      = MAX_SUPPLY :=
  ⟨List.length_range MAX_SUPPLY,
    (c2_rarity_sums (List.range MAX_SUPPLY) (fun _ => [])
      (List.length_range MAX_SUPPLY)).2.1⟩

end FirstFirst
